import Mathlib

/-!
Shallow embedding of `src/20250116/vector_project/src/vector.rs`
(Rust100Days, day 2025-01-16): a hand-rolled dynamic array `Vector`
over `i32` elements with manual capacity doubling/halving.

The Rust struct holds a raw buffer, a `size` and a `capacity`.  The
buffer's logically valid region `[0, size)` is modelled as a `List Int`
(`data`); the slots `[size, capacity)` hold unspecified values in the
Rust code and no operation ever reads them, so they are not modelled.
`size` is `data.length`.  A Rust `panic!` (out-of-bounds) is modelled as
`none` / the `none` component of the result; `panic!` aborts before any
write, so the pre-state is unchanged, which the `Option` model reflects
by simply not producing a successor state.
-/

namespace Rust100

/-- Rust's `usize::next_power_of_two` (standard library): the smallest
power of two `>= n` (and `1` for `n = 0`).  Implemented with structural
recursion on a fuel argument so that it reduces in the kernel; the fuel
`n` suffices because `n < 2 ^ n`. -/
def npotGo (target : Nat) : Nat → Nat → Nat
  | acc, 0 => acc
  | acc, fuel + 1 => if target ≤ acc then acc else npotGo target (acc * 2) fuel

/-- `n.next_power_of_two` from the Rust standard library. -/
def nextPowerOfTwo (n : Nat) : Nat := npotGo n 1 n

/-- The `Vector` struct from `vector.rs`: `data` is the valid prefix of
the backing buffer, `capacity` the allocated slot count.  `size` is
`data.length`. -/
structure Vector where
  data : List Int
  capacity : Nat
deriving DecidableEq

/-- `Vector::size`. -/
def Vector.size (v : Vector) : Nat := v.data.length

/-- `Vector::is_empty`. -/
def Vector.is_empty (v : Vector) : Bool := v.size == 0

/-- `Vector::new`: capacity is `initial_capacity.next_power_of_two()`
when the hint is positive, else 16; the buffer starts logically empty. -/
def Vector.new (initial_capacity : Nat) : Vector :=
  { data := []
    capacity :=
      if initial_capacity > 0 then nextPowerOfTwo initial_capacity else 16 }

/-- `Vector::resize` (private): reallocates, copies the `size` valid
elements, and updates `capacity`; the logical contents are unchanged. -/
def Vector.resize (v : Vector) (new_capacity : Nat) : Vector :=
  { v with capacity := new_capacity }

/-- `Vector::at`: bounds check `index >= size` panics (`none`),
otherwise the element at `index`. -/
def Vector.at' (v : Vector) (index : Nat) : Option Int :=
  if index ≥ v.size then none
  else some (v.data.getD index 0)

/-- `Vector::push`: doubles capacity when `size == capacity`, then
writes `item` at position `size` and increments `size`. -/
def Vector.push (v : Vector) (item : Int) : Vector :=
  let w := if v.size = v.capacity then v.resize (v.capacity * 2) else v
  { w with data := w.data ++ [item] }

/-- `Vector::insert`: panics (`none`) when `index >= size`; otherwise
doubles capacity when full, shifts `[index, size)` right and writes
`item` at `index`. -/
def Vector.insert (v : Vector) (index : Nat) (item : Int) : Option Vector :=
  if index ≥ v.size then none
  else
    let w := if v.size = v.capacity then v.resize (v.capacity * 2) else v
    some { w with data := w.data.take index ++ item :: w.data.drop index }

/-- `Vector::prepend`: `insert(0, item)`. -/
def Vector.prepend (v : Vector) (item : Int) : Option Vector :=
  v.insert 0 item

/-- `Vector::pop`: `None` and no mutation on an empty vector; otherwise
returns the last element, decrements `size`, and halves capacity when
`size <= capacity / 4 && capacity > 16`. -/
def Vector.pop (v : Vector) : Option Int × Vector :=
  if v.is_empty then (none, v)
  else
    let value := v.data.getD (v.size - 1) 0
    let w : Vector := { v with data := v.data.take (v.size - 1) }
    let w' := if w.size ≤ w.capacity / 4 ∧ w.capacity > 16
      then w.resize (w.capacity / 2) else w
    (some value, w')

/-- The body of `Vector::delete` after its bounds check: shift
`(index, size)` left, decrement `size`, then if
`size <= capacity / 4 && capacity > 16` resize to `capacity * 2`
(the code doubles here, unlike `pop`). -/
def Vector.deleteU (v : Vector) (index : Nat) : Vector :=
  let w : Vector := { v with data := v.data.take index ++ v.data.drop (index + 1) }
  if w.size ≤ w.capacity / 4 ∧ w.capacity > 16
    then w.resize (w.capacity * 2) else w

/-- `Vector::delete`: panics (`none`) when `index >= size`, otherwise
`deleteU`. -/
def Vector.delete (v : Vector) (index : Nat) : Option Vector :=
  if index ≥ v.size then none else some (v.deleteU index)

/-- The scan loop of `Vector::remove`: `while i < size`, delete a
matching element in place (holding `i` steady) or advance `i`. -/
def Vector.removeGo (v : Vector) (item : Int) (i : Nat) : Vector :=
  if h : i < v.size then
    if v.data.getD i 0 = item then
      Vector.removeGo (v.deleteU i) item i
    else
      Vector.removeGo v item (i + 1)
  else v
termination_by v.size - i
decreasing_by
  · have hlen : (v.deleteU i).size = v.size - 1 := by
      simp only [Vector.deleteU, Vector.resize, Vector.size] at *
      split <;> simp <;> omega
    rw [hlen]
    omega
  · omega

/-- `Vector::remove`: removes every occurrence of `item`. -/
def Vector.remove (v : Vector) (item : Int) : Vector :=
  v.removeGo item 0

/-- The scan loop of `Vector::find`, carrying the current index. -/
def Vector.findGo (item : Int) : List Int → Nat → Int
  | [], _ => -1
  | y :: ys, i => if y = item then (i : Int) else Vector.findGo item ys (i + 1)

/-- `Vector::find`: lowest index holding `item`, `-1` if absent. -/
def Vector.find (v : Vector) (item : Int) : Int :=
  Vector.findGo item v.data 0

/-- `foldl` of `push`: a sequence of `push` calls. -/
def Vector.pushAll (v : Vector) (xs : List Int) : Vector :=
  xs.foldl Vector.push v

/-- States reachable from `Vector::new(h)` by the public mutating API.
Fallible operations (`insert`, `prepend`, `delete`) contribute a
successor only when they do not panic. -/
inductive ReachableFrom (h : Nat) : Vector → Prop where
  | new : ReachableFrom h (Vector.new h)
  | push : ∀ v x, ReachableFrom h v → ReachableFrom h (v.push x)
  | insert : ∀ v i x v', ReachableFrom h v → v.insert i x = some v' →
      ReachableFrom h v'
  | prepend : ∀ v x v', ReachableFrom h v → v.prepend x = some v' →
      ReachableFrom h v'
  | pop : ∀ v, ReachableFrom h v → ReachableFrom h (v.pop).2
  | delete : ∀ v i v', ReachableFrom h v → v.delete i = some v' →
      ReachableFrom h v'
  | remove : ∀ v x, ReachableFrom h v → ReachableFrom h (v.remove x)

/-! ### Helper lemmas about `npotGo` / `nextPowerOfTwo` -/

theorem npotGo_pow2 (target : Nat) :
    ∀ (fuel acc k : Nat), acc = 2 ^ k → ∃ m, npotGo target acc fuel = 2 ^ m := by
  intro fuel
  induction fuel with
  | zero => intro acc k hk; exact ⟨k, hk⟩
  | succ n ih =>
    intro acc k hk
    simp only [npotGo]
    split
    · exact ⟨k, hk⟩
    · exact ih (acc * 2) (k + 1) (by rw [hk, Nat.pow_succ])

theorem npotGo_ge (target : Nat) :
    ∀ (fuel acc : Nat), target ≤ acc * 2 ^ fuel → target ≤ npotGo target acc fuel := by
  intro fuel
  induction fuel with
  | zero => intro acc h; simpa [npotGo] using h
  | succ n ih =>
    intro acc h
    simp only [npotGo]
    split
    · assumption
    · apply ih
      calc target ≤ acc * 2 ^ (n + 1) := h
        _ = acc * 2 * 2 ^ n := by ring

theorem npotGo_le (target : Nat) :
    ∀ (fuel k m : Nat), k ≤ m → target ≤ 2 ^ m →
      npotGo target (2 ^ k) fuel ≤ 2 ^ m := by
  intro fuel
  induction fuel with
  | zero =>
    intro k m hk _
    exact Nat.pow_le_pow_right (by norm_num) hk
  | succ n ih =>
    intro k m hk hm
    simp only [npotGo]
    split
    · exact Nat.pow_le_pow_right (by norm_num) hk
    · next hlt =>
      have hkm : k < m := by
        by_contra hc
        push_neg at hc
        exact hlt (le_trans hm (Nat.pow_le_pow_right (by norm_num) hc))
      have h2 : (2 : Nat) ^ k * 2 = 2 ^ (k + 1) := (Nat.pow_succ 2 k).symm
      rw [h2]
      exact ih (k + 1) m hkm hm

theorem nextPowerOfTwo_pow2 (n : Nat) : ∃ m, nextPowerOfTwo n = 2 ^ m :=
  npotGo_pow2 n n 1 0 (by norm_num)

theorem le_nextPowerOfTwo (n : Nat) : n ≤ nextPowerOfTwo n := by
  apply npotGo_ge
  simpa using (Nat.lt_two_pow n).le

theorem nextPowerOfTwo_le_pow (n m : Nat) (h : n ≤ 2 ^ m) :
    nextPowerOfTwo n ≤ 2 ^ m := by
  have := npotGo_le n n 0 m (Nat.zero_le m) h
  simpa [nextPowerOfTwo] using this

theorem pow2_ge_16_of_ge_9 (k : Nat) (h : 9 ≤ 2 ^ k) : 16 ≤ 2 ^ k := by
  rcases Nat.lt_or_ge k 4 with hk | hk
  · interval_cases k <;> norm_num at h
  · calc (16 : Nat) = 2 ^ 4 := by norm_num
      _ ≤ 2 ^ k := Nat.pow_le_pow_right (by norm_num) hk

theorem pow2_half_ge_16 (k : Nat) (h : 16 < 2 ^ k) : 16 ≤ 2 ^ k / 2 := by
  have hk : 5 ≤ k := by
    by_contra hc
    push_neg at hc
    interval_cases k <;> norm_num at h
  have h2 : (2 : Nat) ^ k = 2 ^ (k - 1) * 2 := by
    rw [← Nat.pow_succ]
    congr 1
    omega
  rw [h2, Nat.mul_div_cancel _ (by norm_num)]
  calc (16 : Nat) = 2 ^ 4 := by norm_num
    _ ≤ 2 ^ (k - 1) := Nat.pow_le_pow_right (by norm_num) (by omega)

theorem pow2_half_pow2 (k : Nat) (h : 16 < 2 ^ k) : ∃ j, 2 ^ k / 2 = 2 ^ j := by
  have hk : 1 ≤ k := by
    by_contra hc
    push_neg at hc
    interval_cases k
    norm_num at h
  refine ⟨k - 1, ?_⟩
  have h2 : (2 : Nat) ^ k = 2 ^ (k - 1) * 2 := by
    rw [← Nat.pow_succ]
    congr 1
    omega
  rw [h2, Nat.mul_div_cancel _ (by norm_num)]

/-! ### Basic lemmas about the `Vector` operations -/

theorem Vector.push_data (v : Vector) (x : Int) :
    (v.push x).data = v.data ++ [x] := by
  simp only [Vector.push, Vector.resize]
  split <;> rfl

theorem Vector.push_size (v : Vector) (x : Int) :
    (v.push x).size = v.size + 1 := by
  simp [Vector.size, Vector.push_data]

theorem Vector.push_capacity (v : Vector) (x : Int) :
    (v.push x).capacity =
      if v.size = v.capacity then v.capacity * 2 else v.capacity := by
  simp only [Vector.push, Vector.resize]
  split <;> rfl

theorem Vector.new_data (h : Nat) : (Vector.new h).data = [] := rfl

theorem Vector.new_capacity_pos (h : Nat) (hp : 0 < h) :
    (Vector.new h).capacity = nextPowerOfTwo h := by
  simp [Vector.new, hp]

theorem Vector.new_capacity_zero : (Vector.new 0).capacity = 16 := rfl

theorem Vector.insert_eq (v : Vector) (i : Nat) (x : Int) (h : i < v.size) :
    v.insert i x = some
      { data := v.data.take i ++ x :: v.data.drop i
        capacity := if v.size = v.capacity then v.capacity * 2 else v.capacity } := by
  simp only [Vector.insert, Vector.resize]
  rw [if_neg (by omega)]
  split <;> rfl

theorem Vector.insert_capacity_or (v : Vector) (i : Nat) (x : Int) (w : Vector)
    (h : v.insert i x = some w) :
    w.capacity = v.capacity ∨ w.capacity = v.capacity * 2 := by
  rcases Nat.lt_or_ge i v.size with hi | hi
  · rw [Vector.insert_eq v i x hi] at h
    cases h
    split
    · right; rfl
    · left; rfl
  · simp [Vector.insert, hi] at h

theorem Vector.pop_empty (v : Vector) (h : v.size = 0) : v.pop = (none, v) := by
  simp [Vector.pop, Vector.is_empty, h]

theorem Vector.pop_eq (v : Vector) (h : v.size ≠ 0) :
    v.pop = (some (v.data.getD (v.size - 1) 0),
      { data := v.data.take (v.size - 1)
        capacity := if v.size - 1 ≤ v.capacity / 4 ∧ 16 < v.capacity
          then v.capacity / 2 else v.capacity }) := by
  have hlen : (v.data.take (v.size - 1)).length = v.size - 1 := by
    simp only [Vector.size] at *
    rw [List.length_take]
    omega
  simp only [Vector.pop, Vector.is_empty, Vector.resize, Vector.size] at *
  rw [if_neg (by simpa using h)]
  simp only [Vector.size, hlen]
  split <;> rfl

theorem Vector.pop_capacity_or (v : Vector) :
    (v.pop).2.capacity = v.capacity ∨
      ((v.pop).2.capacity = v.capacity / 2 ∧ 16 < v.capacity) := by
  rcases Nat.eq_zero_or_pos v.size with h | h
  · rw [Vector.pop_empty v h]
    left; rfl
  · rw [Vector.pop_eq v (by omega)]
    simp only
    split
    · next hc => exact Or.inr ⟨rfl, hc.2⟩
    · left; rfl

theorem Vector.deleteU_data (v : Vector) (i : Nat) :
    (v.deleteU i).data = v.data.take i ++ v.data.drop (i + 1) := by
  simp only [Vector.deleteU, Vector.resize]
  split <;> rfl

theorem Vector.deleteU_size (v : Vector) (i : Nat) (h : i < v.size) :
    (v.deleteU i).size = v.size - 1 := by
  simp only [Vector.size] at *
  rw [Vector.deleteU_data]
  simp
  omega

theorem Vector.deleteU_capacity (v : Vector) (i : Nat) (h : i < v.size) :
    (v.deleteU i).capacity =
      if v.size - 1 ≤ v.capacity / 4 ∧ 16 < v.capacity
        then v.capacity * 2 else v.capacity := by
  have hlen : (v.data.take i ++ v.data.drop (i + 1)).length = v.size - 1 := by
    simp only [Vector.size] at *
    simp
    omega
  simp only [Vector.deleteU, Vector.resize, Vector.size, hlen]
  split <;> rfl

theorem Vector.deleteU_capacity_or (v : Vector) (i : Nat) :
    (v.deleteU i).capacity = v.capacity ∨
      (v.deleteU i).capacity = v.capacity * 2 := by
  simp only [Vector.deleteU, Vector.resize]
  split
  · right; rfl
  · left; rfl

theorem Vector.delete_eq (v : Vector) (i : Nat) (h : i < v.size) :
    v.delete i = some (v.deleteU i) := by
  simp [Vector.delete, Nat.not_le.mpr h]

theorem Vector.removeGo_data : ∀ (v : Vector) (item : Int) (i : Nat),
    (v.removeGo item i).data
      = v.data.take i ++ (v.data.drop i).filter (fun y => y != item) := by
  intro v item i
  induction v, item, i using Vector.removeGo.induct with
  | case1 v i h ih =>
    rw [Vector.removeGo]
    rw [dif_pos h, if_pos rfl]
    rw [ih, Vector.deleteU_data]
    have hi : i < v.data.length := h
    have hlen : (v.data.take i).length = i := by
      rw [List.length_take]
      omega
    rw [List.take_left' hlen, List.drop_left' hlen]
    have hgd : v.data.getD i 0 = v.data[i] := List.getD_eq_getElem v.data 0 hi
    rw [List.drop_eq_getElem_cons hi]
    rw [List.filter_cons_of_neg (by rw [← hgd]; simp)]
  | case2 v item i h hne ih =>
    rw [Vector.removeGo]
    rw [dif_pos h, if_neg hne]
    rw [ih]
    have hi : i < v.data.length := h
    have hgd : v.data.getD i 0 = v.data[i] := List.getD_eq_getElem v.data 0 hi
    rw [List.drop_eq_getElem_cons hi]
    rw [List.filter_cons_of_pos (by rw [← hgd]; simpa using hne)]
    rw [← List.take_concat_get v.data i hi]
    simp only [List.concat_eq_append, List.append_assoc, List.singleton_append]
  | case3 v item i h =>
    rw [Vector.removeGo]
    rw [dif_neg h]
    have hi : v.data.length ≤ i := by
      simp only [Vector.size] at h
      omega
    rw [List.take_of_length_le hi, List.drop_eq_nil_of_le hi]
    simp

theorem Vector.removeGo_capacity : ∀ (v : Vector) (item : Int) (i : Nat),
    ∃ j, (v.removeGo item i).capacity = 2 ^ j * v.capacity := by
  intro v item i
  induction v, item, i using Vector.removeGo.induct with
  | case1 v i h ih =>
    rw [Vector.removeGo, dif_pos h, if_pos rfl]
    obtain ⟨j, hj⟩ := ih
    rcases Vector.deleteU_capacity_or v i with hc | hc
    · exact ⟨j, by rw [hj, hc]⟩
    · refine ⟨j + 1, ?_⟩
      rw [hj, hc]
      ring
  | case2 v item i h hne ih =>
    rw [Vector.removeGo, dif_pos h, if_neg hne]
    exact ih
  | case3 v item i h =>
    rw [Vector.removeGo, dif_neg h]
    exact ⟨0, by ring⟩

theorem Vector.remove_data (v : Vector) (item : Int) :
    (v.remove item).data = v.data.filter (fun y => y != item) := by
  have h := Vector.removeGo_data v item 0
  simpa [Vector.remove] using h

theorem Vector.pushAll_data : ∀ (xs : List Int) (v : Vector),
    (v.pushAll xs).data = v.data ++ xs := by
  intro xs
  induction xs with
  | nil => intro v; simp [Vector.pushAll]
  | cons x xs ih =>
    intro v
    have h1 : v.pushAll (x :: xs) = (v.push x).pushAll xs := rfl
    rw [h1, ih, Vector.push_data, List.append_assoc]
    rfl

theorem Vector.findGo_eq (item : Int) : ∀ (l : List Int) (k : Nat),
    (item ∉ l → Vector.findGo item l k = -1) ∧
    (item ∈ l → ∃ i : Nat, i < l.length ∧
      Vector.findGo item l k = ((k + i : Nat) : Int) ∧
      l.getD i 0 = item ∧ ∀ j : Nat, j < i → l.getD j 0 ≠ item) := by
  intro l
  induction l with
  | nil => intro k; simp [Vector.findGo]
  | cons y ys ih =>
    intro k
    constructor
    · intro hnm
      have hy : ¬ y = item := fun hc => hnm (by rw [← hc]; exact List.mem_cons_self y ys)
      rw [Vector.findGo, if_neg hy]
      exact (ih (k + 1)).1 (fun hc => hnm (List.mem_cons_of_mem y hc))
    · intro hm
      by_cases hy : y = item
      · refine ⟨0, by simp, ?_, by simpa using hy, by omega⟩
        rw [Vector.findGo, if_pos hy]
        simp
      · have hys : item ∈ ys := by
          rcases List.mem_cons.mp hm with hc | hc
          · exact absurd hc.symm hy
          · exact hc
        obtain ⟨i, hil, hfg, hgd, hj⟩ := (ih (k + 1)).2 hys
        refine ⟨i + 1, by simpa using hil, ?_, by simpa using hgd, ?_⟩
        · rw [Vector.findGo, if_neg hy, hfg]
          congr 1
          omega
        · intro j hji
          cases j with
          | zero => simpa using hy
          | succ j' => simpa using hj j' (by omega)

theorem Vector.push_capacity_or (v : Vector) (x : Int) :
    (v.push x).capacity = v.capacity ∨ (v.push x).capacity = v.capacity * 2 := by
  rw [Vector.push_capacity]
  split
  · right; rfl
  · left; rfl

theorem Vector.delete_capacity_or (v : Vector) (i : Nat) (w : Vector)
    (h : v.delete i = some w) :
    w.capacity = v.capacity ∨ w.capacity = v.capacity * 2 := by
  simp only [Vector.delete] at h
  split at h
  · simp at h
  · cases h
    exact Vector.deleteU_capacity_or v i

/-- One step of the capacity-change discipline (growth doubles, shrink
halves only when `capacity > 16`) keeps the capacity a power of two and
never lets it fall below 16 once it is at least 16. -/
theorem cap_preserve (c c' : Nat)
    (hstep : c' = c ∨ c' = c * 2 ∨ (c' = c / 2 ∧ 16 < c))
    (hp : ∃ k, c = 2 ^ k) :
    (∃ k, c' = 2 ^ k) ∧ (16 ≤ c → 16 ≤ c') := by
  obtain ⟨k, rfl⟩ := hp
  rcases hstep with rfl | rfl | ⟨rfl, hgt⟩
  · exact ⟨⟨k, rfl⟩, fun h => h⟩
  · exact ⟨⟨k + 1, by ring⟩, fun h => by omega⟩
  · exact ⟨pow2_half_pow2 k hgt, fun _ => pow2_half_ge_16 k hgt⟩

/-! ### Claim theorems -/

/-- C1, counterexample to the claim as stated: the state produced by
`Vector::new(1)` is reachable (it is an initial state), yet its
`capacity` is `1`, which is not `>= 16` — `next_power_of_two(1) = 1`,
so small nonzero hints yield capacities below 16. -/
theorem c1_counterexample :
    ReachableFrom 1 (Vector.new 1) ∧ (Vector.new 1).capacity = 1 ∧
      ¬ 16 ≤ (Vector.new 1).capacity :=
  ⟨ReachableFrom.new, by decide, by decide⟩

/-- C1 (amended): for every reachable state the `capacity` field is a
power of two; and it is moreover `>= 16` whenever the construction hint
was `0` or at least `9` (for hints `1..8`, `new` itself already yields a
power-of-two capacity below 16). -/
theorem c1_capacity_invariant (h : Nat) (v : Vector) (hr : ReachableFrom h v) :
    (∃ k, v.capacity = 2 ^ k) ∧ ((h = 0 ∨ 9 ≤ h) → 16 ≤ v.capacity) := by
  induction hr with
  | new =>
    constructor
    · by_cases h0 : 0 < h
      · rw [Vector.new_capacity_pos h h0]
        exact nextPowerOfTwo_pow2 h
      · have hz : h = 0 := by omega
        subst hz
        exact ⟨4, by norm_num [Vector.new_capacity_zero]⟩
    · intro hc
      rcases hc with hc | hc
      · subst hc
        rw [Vector.new_capacity_zero]
      · have h0 : 0 < h := by omega
        rw [Vector.new_capacity_pos h h0]
        obtain ⟨k, hk⟩ := nextPowerOfTwo_pow2 h
        rw [hk]
        apply pow2_ge_16_of_ge_9
        rw [← hk]
        calc 9 ≤ h := hc
          _ ≤ nextPowerOfTwo h := le_nextPowerOfTwo h
  | push v x hr ih =>
    obtain ⟨hp, hmono⟩ := cap_preserve v.capacity (v.push x).capacity
      (by rcases Vector.push_capacity_or v x with e | e
          · exact Or.inl e
          · exact Or.inr (Or.inl e)) ih.1
    exact ⟨hp, fun hc => hmono (ih.2 hc)⟩
  | insert v i x v' hr he ih =>
    obtain ⟨hp, hmono⟩ := cap_preserve v.capacity v'.capacity
      (by rcases Vector.insert_capacity_or v i x v' he with e | e
          · exact Or.inl e
          · exact Or.inr (Or.inl e)) ih.1
    exact ⟨hp, fun hc => hmono (ih.2 hc)⟩
  | prepend v x v' hr he ih =>
    obtain ⟨hp, hmono⟩ := cap_preserve v.capacity v'.capacity
      (by rcases Vector.insert_capacity_or v 0 x v' he with e | e
          · exact Or.inl e
          · exact Or.inr (Or.inl e)) ih.1
    exact ⟨hp, fun hc => hmono (ih.2 hc)⟩
  | pop v hr ih =>
    obtain ⟨hp, hmono⟩ := cap_preserve v.capacity (v.pop).2.capacity
      (by rcases Vector.pop_capacity_or v with e | e
          · exact Or.inl e
          · exact Or.inr (Or.inr e)) ih.1
    exact ⟨hp, fun hc => hmono (ih.2 hc)⟩
  | delete v i v' hr he ih =>
    obtain ⟨hp, hmono⟩ := cap_preserve v.capacity v'.capacity
      (by rcases Vector.delete_capacity_or v i v' he with e | e
          · exact Or.inl e
          · exact Or.inr (Or.inl e)) ih.1
    exact ⟨hp, fun hc => hmono (ih.2 hc)⟩
  | remove v x hr ih =>
    obtain ⟨⟨k, hk⟩, h16⟩ := ih
    obtain ⟨j, hj⟩ := Vector.removeGo_capacity v x 0
    have hcap : (v.remove x).capacity = 2 ^ j * v.capacity := hj
    constructor
    · exact ⟨j + k, by rw [hcap, hk, pow_add]⟩
    · intro hc
      calc 16 ≤ v.capacity := h16 hc
        _ ≤ 2 ^ j * v.capacity :=
          Nat.le_mul_of_pos_left _ (pow_pos (by norm_num) j)
        _ = (v.remove x).capacity := hcap.symm

theorem c1_witness :
    (∃ k, (Vector.new 0).capacity = 2 ^ k) ∧ 16 ≤ (Vector.new 0).capacity :=
  ⟨(c1_capacity_invariant 0 (Vector.new 0) ReachableFrom.new).1,
   (c1_capacity_invariant 0 (Vector.new 0) ReachableFrom.new).2 (Or.inl rfl)⟩

/-- C2: `at`, `insert` and `delete` fail with the out-of-bounds panic
exactly when `index >= size` (the check precedes every mutation, so a
failing call is modelled as `none` with no successor state), and
`prepend` fails whenever the vector is empty. -/
theorem c2_out_of_bounds (v : Vector) (i : Nat) (x : Int) :
    (v.at' i = none ↔ v.size ≤ i) ∧
    (v.insert i x = none ↔ v.size ≤ i) ∧
    (v.delete i = none ↔ v.size ≤ i) ∧
    (v.size = 0 → v.prepend x = none) := by
  refine ⟨?_, ?_, ?_, fun hz => ?_⟩
  · rcases Nat.lt_or_ge i v.size with h | h
    · rw [Vector.at', if_neg (Nat.not_le.mpr h)]
      simp
      omega
    · rw [Vector.at', if_pos h]
      simp
      omega
  · rcases Nat.lt_or_ge i v.size with h | h
    · rw [Vector.insert, if_neg (Nat.not_le.mpr h)]
      simp
      omega
    · rw [Vector.insert, if_pos h]
      simp
      omega
  · rcases Nat.lt_or_ge i v.size with h | h
    · rw [Vector.delete, if_neg (Nat.not_le.mpr h)]
      simp
      omega
    · rw [Vector.delete, if_pos h]
      simp
      omega
  · rw [Vector.prepend, Vector.insert, if_pos (by omega)]

theorem c2_witness :
    ((Vector.new 0).at' 0 = none ↔ (Vector.new 0).size ≤ 0) ∧
    ((Vector.new 0).insert 0 7 = none ↔ (Vector.new 0).size ≤ 0) ∧
    ((Vector.new 0).delete 0 = none ↔ (Vector.new 0).size ≤ 0) ∧
    ((Vector.new 0).size = 0 → (Vector.new 0).prepend 7 = none) :=
  c2_out_of_bounds (Vector.new 0) 0 7

/-- C3: for `index < size`, `delete` removes the element at `index`,
shifts the later elements one position left, decrements `size`, and
when the shrink trigger fires (`new size <= capacity / 4` and
`capacity > 16`) it DOUBLES capacity, as the code literally does. -/
theorem c3_delete_spec (v : Vector) (i : Nat) (h : i < v.size) :
    ∃ w : Vector, v.delete i = some w ∧
      w.data = v.data.take i ++ v.data.drop (i + 1) ∧
      w.size = v.size - 1 ∧
      w.capacity = if v.size - 1 ≤ v.capacity / 4 ∧ 16 < v.capacity
        then v.capacity * 2 else v.capacity :=
  ⟨v.deleteU i, Vector.delete_eq v i h, Vector.deleteU_data v i,
   Vector.deleteU_size v i h, Vector.deleteU_capacity v i h⟩

theorem c3_witness :
    ∃ w : Vector, (Vector.mk [1, 2, 3, 4, 5] 32).delete 1 = some w ∧
      w.data = [1, 3, 4, 5] ∧ w.size = 4 ∧ w.capacity = 64 := by
  obtain ⟨w, h1, h2, h3, h4⟩ := c3_delete_spec (Vector.mk [1, 2, 3, 4, 5] 32) 1 (by decide)
  exact ⟨w, h1, h2.trans (by decide), h3.trans (by decide), h4.trans (by decide)⟩

/-- C4: `new(0)` has capacity 16 and size 0; for `h > 0`, `new(h)` has
size 0 and capacity the smallest power of two `>= h`. -/
theorem c4_new_capacity :
    ((Vector.new 0).capacity = 16 ∧ (Vector.new 0).size = 0) ∧
    ∀ h : Nat, 0 < h →
      (Vector.new h).size = 0 ∧
      (∃ k, (Vector.new h).capacity = 2 ^ k) ∧
      h ≤ (Vector.new h).capacity ∧
      ∀ m : Nat, h ≤ 2 ^ m → (Vector.new h).capacity ≤ 2 ^ m := by
  refine ⟨⟨rfl, rfl⟩, fun h h0 => ?_⟩
  rw [Vector.new_capacity_pos h h0]
  exact ⟨rfl, nextPowerOfTwo_pow2 h, le_nextPowerOfTwo h,
    fun m hm => nextPowerOfTwo_le_pow h m hm⟩

theorem c4_witness :
    ((Vector.new 0).capacity = 16 ∧ (Vector.new 0).size = 0) ∧
    (Vector.new 5).size = 0 ∧ (∃ k, (Vector.new 5).capacity = 2 ^ k) ∧
      5 ≤ (Vector.new 5).capacity ∧ (Vector.new 5).capacity ≤ 2 ^ 3 :=
  ⟨c4_new_capacity.1, (c4_new_capacity.2 5 (by decide)).1,
   (c4_new_capacity.2 5 (by decide)).2.1, (c4_new_capacity.2 5 (by decide)).2.2.1,
   (c4_new_capacity.2 5 (by decide)).2.2.2 3 (by decide)⟩

/-- C5: `pop` on an empty vector returns `None` and leaves the state
unchanged (it never panics); on a non-empty vector it returns the
element at `size - 1`, decrements `size`, and halves capacity exactly
when the new size is `<= capacity / 4` with `capacity > 16` — so for
power-of-two capacities it never shrinks capacity below 16. -/
theorem c5_pop_spec (v : Vector) :
    (v.size = 0 → v.pop = (none, v)) ∧
    (v.size ≠ 0 →
      (v.pop).1 = some (v.data.getD (v.size - 1) 0) ∧
      (v.pop).2.data = v.data.take (v.size - 1) ∧
      (v.pop).2.size = v.size - 1 ∧
      (v.pop).2.capacity =
        if v.size - 1 ≤ v.capacity / 4 ∧ 16 < v.capacity
          then v.capacity / 2 else v.capacity) ∧
    ((∃ k, v.capacity = 2 ^ k) → min 16 v.capacity ≤ (v.pop).2.capacity) := by
  refine ⟨fun h => Vector.pop_empty v h, fun h => ?_, fun hp => ?_⟩
  · rw [Vector.pop_eq v h]
    refine ⟨rfl, rfl, ?_, rfl⟩
    simp only [Vector.size] at h ⊢
    rw [List.length_take]
    omega
  · rcases Vector.pop_capacity_or v with hc | ⟨hc, hgt⟩
    · rw [hc]
      exact Nat.min_le_right 16 v.capacity
    · obtain ⟨k, hk⟩ := hp
      rw [hc]
      refine le_trans (Nat.min_le_left 16 v.capacity) ?_
      rw [hk]
      exact pow2_half_ge_16 k (hk ▸ hgt)

theorem c5_witness :
    (Vector.new 0).pop = (none, Vector.new 0) ∧
    ((Vector.mk [5, 6, 7, 8] 32).pop).1 = some 8 ∧
    ((Vector.mk [5, 6, 7, 8] 32).pop).2.data = [5, 6, 7] ∧
    ((Vector.mk [5, 6, 7, 8] 32).pop).2.size = 3 ∧
    ((Vector.mk [5, 6, 7, 8] 32).pop).2.capacity = 16 ∧
    min 16 (Vector.mk [5, 6, 7, 8] 32).capacity
      ≤ ((Vector.mk [5, 6, 7, 8] 32).pop).2.capacity := by
  have h0 := (c5_pop_spec (Vector.new 0)).1 rfl
  obtain ⟨h1, h2, h3, h4⟩ := (c5_pop_spec (Vector.mk [5, 6, 7, 8] 32)).2.1 (by decide)
  have h5 := (c5_pop_spec (Vector.mk [5, 6, 7, 8] 32)).2.2 ⟨5, by decide⟩
  exact ⟨h0, h1.trans (by decide), h2.trans (by decide), h3.trans (by decide),
    h4.trans (by decide), h5⟩

/-- C6: after any sequence of `n` pushes on a freshly constructed
vector (any hint), `size() == n` and `at(i)` returns the `i`-th pushed
value for every `i < n`, across any intervening capacity growth. -/
theorem c6_push_sequence (h : Nat) (xs : List Int) :
    ((Vector.new h).pushAll xs).size = xs.length ∧
    ∀ i : Nat, i < xs.length →
      ((Vector.new h).pushAll xs).at' i = some (xs.getD i 0) := by
  have hd : ((Vector.new h).pushAll xs).data = xs := by
    rw [Vector.pushAll_data]
    rfl
  constructor
  · simp [Vector.size, hd]
  · intro i hi
    rw [Vector.at', if_neg (by simp only [Vector.size, hd]; omega)]
    rw [hd]

theorem c6_witness :
    ((Vector.new 0).pushAll [10, 20, 30]).size = 3 ∧
    ((Vector.new 0).pushAll [10, 20, 30]).at' 1 = some 20 :=
  ⟨(c6_push_sequence 0 [10, 20, 30]).1,
   (c6_push_sequence 0 [10, 20, 30]).2 1 (by decide)⟩

/-- C7: `push` and (successful) `insert` double the capacity exactly
when called on a vector with `size == capacity`, and leave it unchanged
otherwise. -/
theorem c7_capacity_growth (v : Vector) (x : Int) (i : Nat) :
    ((v.push x).capacity =
      if v.size = v.capacity then v.capacity * 2 else v.capacity) ∧
    ∀ w : Vector, v.insert i x = some w →
      w.capacity = if v.size = v.capacity then v.capacity * 2 else v.capacity := by
  refine ⟨Vector.push_capacity v x, fun w hw => ?_⟩
  have hi : i < v.size := by
    by_contra hc
    push_neg at hc
    rw [Vector.insert, if_pos hc] at hw
    simp at hw
  rw [Vector.insert_eq v i x hi] at hw
  cases hw
  rfl

theorem c7_witness :
    ((Vector.mk [1] 1).push 9).capacity = 2 ∧ (Vector.mk [9, 1] 2).capacity = 2 := by
  have h := c7_capacity_growth (Vector.mk [1] 1) 9 0
  exact ⟨h.1.trans (by decide), (h.2 (Vector.mk [9, 1] 2) (by decide)).trans (by decide)⟩

/-- C8: `remove(x)` never fails, leaves no occurrence of `x`, and
preserves the relative order of all other elements — its result is
exactly the original contents with every `x` filtered out. -/
theorem c8_remove_spec (v : Vector) (x : Int) :
    (v.remove x).data = v.data.filter (fun y => y != x) ∧
      x ∉ (v.remove x).data := by
  refine ⟨Vector.remove_data v x, ?_⟩
  rw [Vector.remove_data v x]
  intro hmem
  simp [List.mem_filter] at hmem

theorem c8_witness :
    ((Vector.mk [1, 2, 2, 3] 16).remove 2).data = [1, 3] ∧
      2 ∉ ((Vector.mk [1, 2, 2, 3] 16).remove 2).data := by
  have h := c8_remove_spec (Vector.mk [1, 2, 2, 3] 16) 2
  refine ⟨h.1.trans (by decide), ?_⟩
  rw [h.1]
  decide

/-- C9: `find(x)` never fails; it returns the smallest index whose
element equals `x` when one exists, and the sentinel `-1` otherwise. -/
theorem c9_find_spec (v : Vector) (x : Int) :
    (x ∉ v.data → v.find x = -1) ∧
    (x ∈ v.data → ∃ i : Nat, i < v.size ∧ v.find x = (i : Int) ∧
      v.at' i = some x ∧ ∀ j : Nat, j < i → v.at' j ≠ some x) := by
  have h := Vector.findGo_eq x v.data 0
  constructor
  · intro hnm
    exact h.1 hnm
  · intro hm
    obtain ⟨i, hil, hfg, hgd, hj⟩ := h.2 hm
    refine ⟨i, hil, ?_, ?_, ?_⟩
    · simpa using hfg
    · rw [Vector.at', if_neg (by simp only [Vector.size]; omega)]
      rw [hgd]
    · intro j hji
      rw [Vector.at', if_neg (by simp only [Vector.size]; omega)]
      intro hc
      exact hj j hji (Option.some.inj hc)

theorem c9_witness :
    (Vector.mk [4, 5, 5] 16).find 7 = -1 ∧
    ∃ i : Nat, i < (Vector.mk [4, 5, 5] 16).size ∧
      (Vector.mk [4, 5, 5] 16).find 5 = (i : Int) ∧
      (Vector.mk [4, 5, 5] 16).at' i = some 5 ∧
      ∀ j : Nat, j < i → (Vector.mk [4, 5, 5] 16).at' j ≠ some 5 :=
  ⟨(c9_find_spec (Vector.mk [4, 5, 5] 16) 7).1 (by decide),
   (c9_find_spec (Vector.mk [4, 5, 5] 16) 5).2 (by decide)⟩

/-- C10: each iteration of `remove`'s scan loop strictly decreases the
measure `size - index`: a match deletes in place (size drops by one,
index held steady), a non-match advances the index — so the loop, and
hence `remove`, terminates on every state. -/
theorem c10_remove_measure (v : Vector) (x : Int) (i : Nat) (h : i < v.size) :
    (v.data.getD i 0 = x → (v.deleteU i).size - i < v.size - i) ∧
    (v.data.getD i 0 ≠ x → v.size - (i + 1) < v.size - i) := by
  constructor
  · intro _
    rw [Vector.deleteU_size v i h]
    omega
  · intro _
    omega

theorem c10_witness :
    ((Vector.mk [3, 4] 16).deleteU 0).size - 0 < (Vector.mk [3, 4] 16).size - 0 ∧
    (Vector.mk [3, 4] 16).size - (0 + 1) < (Vector.mk [3, 4] 16).size - 0 :=
  ⟨(c10_remove_measure (Vector.mk [3, 4] 16) 3 0 (by decide)).1 (by decide),
   (c10_remove_measure (Vector.mk [3, 4] 16) 4 0 (by decide)).2 (by decide)⟩

end Rust100
